import Mathlib

/-!
Verification of the append-only, offset-indexed skip list implemented in
`src/algo/skiplist.rs`.

Embedding notes.  The Rust code builds a pointer graph of
`Rc<RefCell<Node>>` values.  Records are only ever created by `append`
(one per call, never removed), so every record is identified here by its
insertion index into an arena (`nodes : List Node`); an `Rc` link becomes
an arena index, `Link = Option<Rc<...>>` becomes `Option Nat`.  The
`pos` field the code stores (`pos = self.length` at append time)
coincides with that arena index on every reachable state.  `u64` values
are modelled as `Nat` (the code performs no arithmetic on offsets, and
`length` only ever grows by one, so no wraparound is observable).
`usize` subtraction is checked arithmetic in the profile the crate's own
tests run under (`cargo test`): the underflow of `start_level -= 1` in
`find`, reachable when every forward slot of `head` is empty, is a panic
and is modelled as `Except.error ()`.  The random generator
`rand::thread_rng` is modelled as an explicit stream of fair-coin
outcomes `flips : Nat → Bool` supplied to each `append` call
(`true` = the loop in `get_level` continues, `false` = it stops).
-/

namespace SkipVerify

/-- Embedding of `struct Node`: `data`, the per-level forward links
(`next`), the search key `offset` and the insertion ordinal `pos`. -/
structure Node where
  data : String
  next : List (Option Nat)
  offset : Nat
  pos : Nat
deriving DecidableEq

/-- Placeholder used by the total indexing function `getNode`; reachable
states never index out of bounds (see the well-formedness lemmas). -/
def defaultNode : Node := { data := "", next := [], offset := 0, pos := 0 }

/-- Dereference an arena index (an `Rc<RefCell<Node>>` in the source). -/
def getNode (nodes : List Node) (i : Nat) : Node := nodes.getD i defaultNode

/-- `node.borrow().next[lvl]`: the forward link of record `i` at level `lvl`. -/
def slot (nodes : List Node) (i lvl : Nat) : Option Nat := (getNode nodes i).next.getD lvl none

/-- Number of forward-link slots of record `i` (the record participates in
levels `0 .. levels i - 1`). -/
def levels (nodes : List Node) (i : Nat) : Nat := (getNode nodes i).next.length

/-- Embedding of `struct SkipList`. -/
structure SkipList where
  nodes : List Node
  head : Option Nat
  tails : List (Option Nat)
  max_level_idx : Nat
  length : Nat
deriving DecidableEq

/-- The record produced by `SkipList::new(level)` when `level ≥ 1`:
no head, `level` empty tail slots, `max_level_idx = level - 1`. -/
def SkipList.init (level : Nat) : SkipList :=
  { nodes := [], head := none, tails := List.replicate level none,
    max_level_idx := level - 1, length := 0 }

/-- `SkipList::new(level)`.  For `level = 0` the field initialiser
`max_level_idx: level - 1` underflows `usize` (a panic under checked
arithmetic, the behaviour §4.1 of the design document describes), so no
usable `SkipList` value is produced: modelled as `none`. -/
def SkipList.new (level : Nat) : Option SkipList :=
  if level = 0 then none else some (SkipList.init level)

/-- The loop of `get_level`: `while rng.gen::<bool>() && n < max_level_idx
{ n += 1 }`.  One coin is consumed per iteration, so the `n`-th coin is
`flips n`; the fuel is `max_level_idx - n`, which bounds the remaining
iterations exactly as the guard `n < max_level_idx` does. -/
def get_level_go (flips : Nat → Bool) : Nat → Nat → Nat
  | 0, n => n
  | fuel + 1, n => if flips n then get_level_go flips fuel (n + 1) else n

/-- `SkipList::get_level` (it reads only `self.max_level_idx`). -/
def get_level (maxIdx : Nat) (flips : Nat → Bool) : Nat := get_level_go flips maxIdx 0

/-- One iteration of the link loop in `append`, at level `lvl`:
`if let Some(old) = self.tails[i].take() { old.borrow_mut().next[i] = Some(node) }
 self.tails[i] = Some(node)` where `idx` is the new record. -/
def linkStep (idx lvl : Nat) (st : List Node × List (Option Nat)) : List Node × List (Option Nat) :=
  let nodes := st.1
  let tails := st.2
  let nodes2 :=
    match tails.getD lvl none with
    | some old =>
        nodes.set old { getNode nodes old with next := (getNode nodes old).next.set lvl (some idx) }
    | none => nodes
  (nodes2, tails.set lvl (some idx))

/-- `for i in 0..level { ... }`: iterations at levels `0, 1, ..., level-1`,
in that order. -/
def linkLevels (idx : Nat) : Nat → List Node × List (Option Nat) → List Node × List (Option Nat)
  | 0, st => st
  | lvl + 1, st => linkStep idx lvl (linkLevels idx lvl st)

/-- `let level = 1 + if self.head.is_none() { self.max_level_idx } else { self.get_level() }`. -/
def appendLevel (sl : SkipList) (flips : Nat → Bool) : Nat :=
  1 + (if sl.head.isNone then sl.max_level_idx else get_level sl.max_level_idx flips)

/-- `SkipList::append(offset, data)`, with the call's coin flips explicit. -/
def SkipList.append (sl : SkipList) (offset : Nat) (data : String) (flips : Nat → Bool) :
    SkipList :=
  let level := appendLevel sl flips
  let idx := sl.nodes.length
  let node : Node := { data := data, next := List.replicate level none, offset := offset,
                       pos := sl.length }
  let st := linkLevels idx level (sl.nodes ++ [node], sl.tails)
  { nodes := st.1,
    head := if sl.head.isNone then some idx else sl.head,
    tails := st.2,
    max_level_idx := sl.max_level_idx,
    length := sl.length + 1 }

/-- The initial loop of `find`:
`loop { if node.borrow().next[start_level].is_some() { break } start_level -= 1 }`
starting at `max_level_idx`, where `h` is the head record.  When every
slot of `head` is empty the decrement underflows `usize` at
`start_level = 0`: modelled as `none` (a panic). -/
def startLevelWalk (nodes : List Node) (h : Nat) : Nat → Option Nat
  | 0 => if (slot nodes h 0).isSome then some 0 else none
  | lvl + 1 => if (slot nodes h (lvl + 1)).isSome then some (lvl + 1) else startLevelWalk nodes h lvl

/-- The within-level loop of `find`: follow the level-`lvl` forward link
while the next record's offset is `≤ target`.  On reachable states every
link points to a strictly larger arena index, so `fuel = nodes.length + 1`
(the value `find` passes) is never exhausted. -/
def walkLevel (nodes : List Node) (target lvl : Nat) : Nat → Nat → Nat
  | 0, i => i
  | fuel + 1, i =>
    match slot nodes i lvl with
    | some j => if (getNode nodes j).offset ≤ target then walkLevel nodes target lvl fuel j else i
    | none => i

/-- The descent `for level in (0..=start_level).rev()`: walk within the
level, then return `(data, level)` if the reached record's offset equals
the target, else continue one level down; `none` after level `0`. -/
def descendFrom (nodes : List Node) (target fuel : Nat) : Nat → Nat → Option (String × Nat)
  | 0, i =>
    let j := walkLevel nodes target 0 fuel i
    if (getNode nodes j).offset = target then some ((getNode nodes j).data, 0) else none
  | lvl + 1, i =>
    let j := walkLevel nodes target (lvl + 1) fuel i
    if (getNode nodes j).offset = target then some ((getNode nodes j).data, lvl + 1)
    else descendFrom nodes target fuel lvl j

/-- `SkipList::find(offset)`.  `Except.error ()` marks the `usize`
underflow panic of the start-level loop (see `startLevelWalk`). -/
def SkipList.find (sl : SkipList) (target : Nat) : Except Unit (Option (String × Nat)) :=
  match sl.head with
  | none => Except.ok none
  | some h =>
    match startLevelWalk sl.nodes h sl.max_level_idx with
    | none => Except.error ()
    | some startLevel => Except.ok (descendFrom sl.nodes target (sl.nodes.length + 1) startLevel h)

/-- One `append` call's arguments: offset, payload, and the coin flips
its `get_level` call would consume. -/
abbrev App := Nat × String × (Nat → Bool)

/-- The state after `SkipList::new(level)` followed by the given `append` calls. -/
def SkipList.build (level : Nat) (apps : List App) : SkipList :=
  apps.foldl (fun sl a => sl.append a.1 a.2.1 a.2.2) (SkipList.init level)

/-! ### List index helpers -/

theorem getD_set_self {α : Type} : ∀ (l : List α) (m : Nat) (v d : α), m < l.length →
    (l.set m v).getD m d = v
  | [], _, _, _, h => absurd h (by simp)
  | _ :: _, 0, _, _, _ => rfl
  | _ :: l, m + 1, v, d, h => by
    simpa using getD_set_self l m v d (by simpa using h)

theorem getD_set_other {α : Type} : ∀ (l : List α) (m k : Nat) (v d : α), m ≠ k →
    (l.set m v).getD k d = l.getD k d
  | [], _, _, _, _, _ => by simp
  | _ :: _, 0, 0, _, _, h => absurd rfl h
  | _ :: _, 0, _ + 1, _, _, _ => by simp
  | _ :: _, _ + 1, 0, _, _, _ => by simp
  | _ :: l, m + 1, k + 1, v, d, h => by
    simpa using getD_set_other l m k v d (fun hmk => h (by omega))

theorem getD_append_len {α : Type} (l : List α) (x d : α) : (l ++ [x]).getD l.length d = x := by
  rw [List.getD_append_right _ _ _ _ (le_refl _)]
  simp

theorem getD_replicate {α : Type} : ∀ (n k : Nat) (x d : α),
    (List.replicate n x).getD k d = if k < n then x else d
  | 0, k, x, d => by simp
  | n + 1, 0, x, d => by simp
  | n + 1, k + 1, x, d => by
    simpa [List.replicate_succ] using getD_replicate n k x d

theorem getD_some_lt_length {α : Type} (l : List (Option α)) (k : Nat) (x : α)
    (h : l.getD k none = some x) : k < l.length := by
  by_contra hk
  rw [List.getD_eq_default _ _ (by omega)] at h
  exact Option.noConfusion h

/-! ### `get_level` characterisation -/

theorem get_level_go_le (flips : Nat → Bool) : ∀ fuel n, get_level_go flips fuel n ≤ n + fuel
  | 0, n => le_refl n
  | fuel + 1, n => by
    have ih := get_level_go_le flips fuel (n + 1)
    unfold get_level_go
    cases hf : flips n
    · simp
    · simp only [if_true]
      omega

/-- The loop run when the first `false` flip sits `k` positions ahead:
the counter advances by `min k fuel`. -/
theorem get_level_go_first_false (flips : Nat → Bool) :
    ∀ fuel s k, (∀ j, s ≤ j → j < s + k → flips j = true) → flips (s + k) = false →
      get_level_go flips fuel s = s + min k fuel
  | 0, s, k, _, _ => by simp [get_level_go]
  | fuel + 1, s, 0, _, hstop => by
    simp only [Nat.add_zero] at hstop
    simp [get_level_go, hstop]
  | fuel + 1, s, k + 1, hrun, hstop => by
    have hs : flips s = true := hrun s (le_refl s) (by omega)
    have ih := get_level_go_first_false flips fuel (s + 1) k
      (fun j h1 h2 => hrun j (by omega) (by omega))
      (by have : s + 1 + k = s + (k + 1) := by omega
          rw [this]; exact hstop)
    simp only [get_level_go, hs, if_true]
    rw [ih]
    omega

/-- The loop run when the first `fuel` flips are all `true`: the cap is hit. -/
theorem get_level_go_all_true (flips : Nat → Bool) :
    ∀ fuel s, (∀ j, s ≤ j → j < s + fuel → flips j = true) →
      get_level_go flips fuel s = s + fuel
  | 0, s, _ => by simp [get_level_go]
  | fuel + 1, s, hrun => by
    have hs : flips s = true := hrun s (le_refl s) (by omega)
    have ih := get_level_go_all_true flips fuel (s + 1)
      (fun j h1 h2 => hrun j (by omega) (by omega))
    simp only [get_level_go, hs, if_true]
    rw [ih]
    omega

theorem get_level_le (maxIdx : Nat) (flips : Nat → Bool) : get_level maxIdx flips ≤ maxIdx := by
  simpa [get_level] using get_level_go_le flips maxIdx 0

/-! ### Characterisation of the link loop of `append` -/

theorem getD_set {α : Type} (l : List α) (m k : Nat) (v d : α) :
    (l.set m v).getD k d = if m = k ∧ k < l.length then v else l.getD k d := by
  by_cases hmk : m = k
  · subst hmk
    by_cases hk : m < l.length
    · rw [getD_set_self _ _ _ _ hk, if_pos ⟨rfl, hk⟩]
    · rw [if_neg (fun hc => hk hc.2), List.getD_eq_default _ _ (by rw [List.length_set]; omega),
        List.getD_eq_default _ _ (by omega)]
  · rw [getD_set_other _ _ _ _ _ hmk, if_neg (fun hc => hmk hc.1)]

theorem getNode_set (nodes : List Node) (m k : Nat) (v : Node) :
    getNode (nodes.set m v) k = if m = k ∧ k < nodes.length then v else getNode nodes k :=
  getD_set nodes m k v defaultNode

theorem linkStep_snd (idx lvl : Nat) (st : List Node × List (Option Nat)) :
    (linkStep idx lvl st).2 = st.2.set lvl (some idx) := rfl

theorem linkStep_fst_len (idx lvl : Nat) (st : List Node × List (Option Nat)) :
    ((linkStep idx lvl st).1).length = st.1.length := by
  cases h : st.2.getD lvl none with
  | none =>
    simp only [linkStep]
    rw [h]
  | some old =>
    simp only [linkStep]
    rw [h]
    simp

theorem linkStep_fst_getNode (idx lvl : Nat) (st : List Node × List (Option Nat)) (k : Nat) :
    getNode (linkStep idx lvl st).1 k =
      if st.2.getD lvl none = some k ∧ k < st.1.length
      then { getNode st.1 k with next := (getNode st.1 k).next.set lvl (some idx) }
      else getNode st.1 k := by
  cases h : st.2.getD lvl none with
  | none =>
    rw [if_neg (fun hc => Option.noConfusion hc.1)]
    simp only [linkStep]
    rw [h]
  | some old =>
    simp only [linkStep]
    rw [h]
    show getNode (st.1.set old _) k = _
    rw [getNode_set]
    by_cases hok : old = k
    · subst hok
      by_cases hk : old < st.1.length
      · rw [if_pos ⟨rfl, hk⟩, if_pos ⟨rfl, hk⟩]
      · rw [if_neg (fun hc => hk hc.2), if_neg (fun hc => hk hc.2)]
    · rw [if_neg (fun hc => hok hc.1), if_neg (fun hc => hok (Option.some_injective _ hc.1))]

theorem linkLevels_fst_len (idx : Nat) : ∀ (l : Nat) (ns : List Node) (ts : List (Option Nat)),
    ((linkLevels idx l (ns, ts)).1).length = ns.length
  | 0, _, _ => rfl
  | l + 1, ns, ts => by
    show ((linkStep idx l (linkLevels idx l (ns, ts))).1).length = ns.length
    rw [linkStep_fst_len]
    exact linkLevels_fst_len idx l ns ts

theorem linkLevels_snd_len (idx : Nat) : ∀ (l : Nat) (ns : List Node) (ts : List (Option Nat)),
    ((linkLevels idx l (ns, ts)).2).length = ts.length
  | 0, _, _ => rfl
  | l + 1, ns, ts => by
    show ((linkStep idx l (linkLevels idx l (ns, ts))).2).length = ts.length
    rw [linkStep_snd, List.length_set]
    exact linkLevels_snd_len idx l ns ts

theorem linkLevels_snd_getD (idx : Nat) :
    ∀ (l : Nat) (ns : List Node) (ts : List (Option Nat)) (j : Nat),
    ((linkLevels idx l (ns, ts)).2).getD j none =
      if j < l ∧ j < ts.length then some idx else ts.getD j none
  | 0, _, _, j => by simp [linkLevels]
  | l + 1, ns, ts, j => by
    have ih := linkLevels_snd_getD idx l ns ts j
    show ((linkStep idx l (linkLevels idx l (ns, ts))).2).getD j none = _
    rw [linkStep_snd, getD_set, linkLevels_snd_len idx l ns ts]
    by_cases hj : l = j
    · subst hj
      by_cases hl : l < ts.length
      · rw [if_pos ⟨rfl, hl⟩, if_pos ⟨by omega, hl⟩]
      · rw [if_neg (fun hc => hl hc.2), if_neg (fun hc => hl hc.2), ih,
          if_neg (fun hc => by omega)]
    · rw [if_neg (fun hc => hj hc.1), ih]
      have hiff : j < l ∧ j < ts.length ↔ j < l + 1 ∧ j < ts.length :=
        ⟨fun hc => ⟨by omega, hc.2⟩, fun hc => ⟨(by omega : j < l), hc.2⟩⟩
      exact if_congr hiff rfl rfl

/-- The link loop never changes a record's `data`, `offset`, `pos`, or the
number of its forward slots (`old.borrow_mut().next[i] = ...` writes one
existing slot in place). -/
theorem linkLevels_fst_fields (idx : Nat) :
    ∀ (l : Nat) (ns : List Node) (ts : List (Option Nat)) (k : Nat),
    (getNode (linkLevels idx l (ns, ts)).1 k).data = (getNode ns k).data ∧
    (getNode (linkLevels idx l (ns, ts)).1 k).offset = (getNode ns k).offset ∧
    (getNode (linkLevels idx l (ns, ts)).1 k).pos = (getNode ns k).pos ∧
    (getNode (linkLevels idx l (ns, ts)).1 k).next.length = (getNode ns k).next.length
  | 0, _, _, _ => ⟨rfl, rfl, rfl, rfl⟩
  | l + 1, ns, ts, k => by
    have ih := linkLevels_fst_fields idx l ns ts k
    have hstep : linkLevels idx (l + 1) (ns, ts) = linkStep idx l (linkLevels idx l (ns, ts)) :=
      rfl
    rw [hstep, linkStep_fst_getNode]
    by_cases hcond : (linkLevels idx l (ns, ts)).2.getD l none = some k ∧
        k < (linkLevels idx l (ns, ts)).1.length
    · rw [if_pos hcond]
      refine ⟨ih.1, ih.2.1, ih.2.2.1, ?_⟩
      rw [List.length_set]
      exact ih.2.2.2
    · rw [if_neg hcond]
      exact ih

/-- Exactly which forward slots the link loop writes: slot `j` of record
`k` becomes a link to the new record `idx` precisely when `j` is one of
the processed levels and `k` was the level-`j` tail (and the write is in
bounds); every other slot of every record is untouched. -/
theorem linkLevels_fst_slot (idx : Nat) :
    ∀ (l : Nat) (ns : List Node) (ts : List (Option Nat)) (k j : Nat),
    slot (linkLevels idx l (ns, ts)).1 k j =
      if j < l ∧ ts.getD j none = some k ∧ k < ns.length ∧ j < levels ns k
      then some idx else slot ns k j
  | 0, ns, ts, k, j => by
    rw [if_neg (fun hc => absurd hc.1 (Nat.not_lt_zero j))]
    rfl
  | l + 1, ns, ts, k, j => by
    have ih := linkLevels_fst_slot idx l ns ts k j
    have hfields := linkLevels_fst_fields idx l ns ts k
    have hlen := linkLevels_fst_len idx l ns ts
    show slot (linkStep idx l (linkLevels idx l (ns, ts))).1 k j = _
    unfold slot
    rw [linkStep_fst_getNode]
    have htl : (linkLevels idx l (ns, ts)).2.getD l none = ts.getD l none := by
      rw [linkLevels_snd_getD, if_neg (fun hc => by omega)]
    by_cases hcond : (linkLevels idx l (ns, ts)).2.getD l none = some k ∧
        k < (linkLevels idx l (ns, ts)).1.length
    · rw [if_pos hcond]
      show ((getNode (linkLevels idx l (ns, ts)).1 k).next.set l (some idx)).getD j none = _
      rw [getD_set]
      have hts : ts.getD l none = some k := by rw [← htl]; exact hcond.1
      have hk : k < ns.length := by rw [← hlen]; exact hcond.2
      by_cases hjl : l = j
      · subst hjl
        by_cases hin : l < (getNode ns k).next.length
        · rw [if_pos ⟨rfl, by rw [hfields.2.2.2]; exact hin⟩,
            if_pos ⟨by omega, hts, hk, hin⟩]
        · rw [if_neg (fun hc => hin (by rw [← hfields.2.2.2]; exact hc.2)),
            if_neg (fun hc => hin hc.2.2.2)]
          show slot (linkLevels idx l (ns, ts)).1 k l = _
          rw [ih, if_neg (fun hc => by omega)]
          rfl
      · rw [if_neg (fun hc => hjl hc.1)]
        show slot (linkLevels idx l (ns, ts)).1 k j = _
        rw [ih]
        have hiff : (j < l ∧ ts.getD j none = some k ∧ k < ns.length ∧ j < levels ns k) ↔
            (j < l + 1 ∧ ts.getD j none = some k ∧ k < ns.length ∧ j < levels ns k) :=
          ⟨fun hc => ⟨by omega, hc.2⟩, fun hc => ⟨by omega, hc.2⟩⟩
        exact if_congr hiff rfl rfl
    · rw [if_neg hcond]
      show slot (linkLevels idx l (ns, ts)).1 k j = _
      rw [ih]
      have hiff : (j < l ∧ ts.getD j none = some k ∧ k < ns.length ∧ j < levels ns k) ↔
          (j < l + 1 ∧ ts.getD j none = some k ∧ k < ns.length ∧ j < levels ns k) := by
        constructor
        · intro hc
          exact ⟨by omega, hc.2⟩
        · intro hc
          rcases hc with ⟨hj1, hts, hk, hlev⟩
          refine ⟨?_, hts, hk, hlev⟩
          rcases Nat.lt_succ_iff_lt_or_eq.mp hj1 with hj | hj
          · exact hj
          · exfalso
            exact hcond ⟨by rw [htl, ← hj]; exact hts, by rw [hlen]; exact hk⟩
      exact if_congr hiff rfl rfl

/-! ### Characterisation of `append` -/

/-- The record `append` allocates before linking. -/
def newNode (sl : SkipList) (o : Nat) (d : String) (f : Nat → Bool) : Node :=
  { data := d, next := List.replicate (appendLevel sl f) none, offset := o, pos := sl.length }

theorem append_def (sl : SkipList) (o : Nat) (d : String) (f : Nat → Bool) :
    sl.append o d f =
      { nodes := (linkLevels sl.nodes.length (appendLevel sl f)
          (sl.nodes ++ [newNode sl o d f], sl.tails)).1,
        head := if sl.head.isNone then some sl.nodes.length else sl.head,
        tails := (linkLevels sl.nodes.length (appendLevel sl f)
          (sl.nodes ++ [newNode sl o d f], sl.tails)).2,
        max_level_idx := sl.max_level_idx,
        length := sl.length + 1 } := rfl

theorem appendLevel_ge_one (sl : SkipList) (f : Nat → Bool) : 1 ≤ appendLevel sl f :=
  Nat.le_add_right 1 _

theorem appendLevel_le (sl : SkipList) (f : Nat → Bool) :
    appendLevel sl f ≤ sl.max_level_idx + 1 := by
  unfold appendLevel
  cases hh : sl.head.isNone
  · have hg := get_level_le sl.max_level_idx f
    rw [if_neg Bool.false_ne_true]
    omega
  · rw [if_pos rfl]
    omega

theorem getNode_append_lt (ns : List Node) (x : Node) (k : Nat) (h : k < ns.length) :
    getNode (ns ++ [x]) k = getNode ns k := by
  unfold getNode
  exact List.getD_append _ _ _ _ h

theorem getNode_append_len (ns : List Node) (x : Node) : getNode (ns ++ [x]) ns.length = x :=
  getD_append_len ns x defaultNode

theorem append_length (sl : SkipList) (o : Nat) (d : String) (f : Nat → Bool) :
    (sl.append o d f).length = sl.length + 1 := rfl

theorem append_max_level_idx (sl : SkipList) (o : Nat) (d : String) (f : Nat → Bool) :
    (sl.append o d f).max_level_idx = sl.max_level_idx := rfl

theorem append_head (sl : SkipList) (o : Nat) (d : String) (f : Nat → Bool) :
    (sl.append o d f).head = if sl.head.isNone then some sl.nodes.length else sl.head := rfl

theorem append_nodes_len (sl : SkipList) (o : Nat) (d : String) (f : Nat → Bool) :
    (sl.append o d f).nodes.length = sl.nodes.length + 1 := by
  rw [append_def]
  show ((linkLevels _ _ _).1).length = _
  rw [linkLevels_fst_len]
  simp

theorem append_tails_len (sl : SkipList) (o : Nat) (d : String) (f : Nat → Bool) :
    (sl.append o d f).tails.length = sl.tails.length := by
  rw [append_def]
  exact linkLevels_snd_len _ _ _ _

theorem append_tails_getD (sl : SkipList) (o : Nat) (d : String) (f : Nat → Bool) (j : Nat) :
    (sl.append o d f).tails.getD j none =
      if j < appendLevel sl f ∧ j < sl.tails.length then some sl.nodes.length
      else sl.tails.getD j none := by
  rw [append_def]
  exact linkLevels_snd_getD _ _ _ _ _

theorem append_old_fields (sl : SkipList) (o : Nat) (d : String) (f : Nat → Bool) (k : Nat)
    (hk : k < sl.nodes.length) :
    (getNode (sl.append o d f).nodes k).data = (getNode sl.nodes k).data ∧
    (getNode (sl.append o d f).nodes k).offset = (getNode sl.nodes k).offset ∧
    (getNode (sl.append o d f).nodes k).pos = (getNode sl.nodes k).pos ∧
    levels (sl.append o d f).nodes k = levels sl.nodes k := by
  have hf := linkLevels_fst_fields sl.nodes.length (appendLevel sl f)
    (sl.nodes ++ [newNode sl o d f]) sl.tails k
  rw [getNode_append_lt _ _ _ hk] at hf
  exact ⟨hf.1, hf.2.1, hf.2.2.1, hf.2.2.2⟩

theorem append_old_slot (sl : SkipList) (o : Nat) (d : String) (f : Nat → Bool) (k j : Nat)
    (hk : k < sl.nodes.length) :
    slot (sl.append o d f).nodes k j =
      if j < appendLevel sl f ∧ sl.tails.getD j none = some k ∧ j < levels sl.nodes k
      then some sl.nodes.length else slot sl.nodes k j := by
  rw [append_def]
  show slot (linkLevels _ _ _).1 k j = _
  rw [linkLevels_fst_slot]
  have hsl : slot (sl.nodes ++ [newNode sl o d f]) k j = slot sl.nodes k j := by
    unfold slot
    rw [getNode_append_lt _ _ _ hk]
  have hlv : levels (sl.nodes ++ [newNode sl o d f]) k = levels sl.nodes k := by
    unfold levels
    rw [getNode_append_lt _ _ _ hk]
  rw [hsl]
  have hiff : (j < appendLevel sl f ∧ sl.tails.getD j none = some k ∧
      k < (sl.nodes ++ [newNode sl o d f]).length ∧
      j < levels (sl.nodes ++ [newNode sl o d f]) k) ↔
      (j < appendLevel sl f ∧ sl.tails.getD j none = some k ∧ j < levels sl.nodes k) := by
    rw [hlv]
    constructor
    · intro hc
      exact ⟨hc.1, hc.2.1, hc.2.2.2⟩
    · intro hc
      exact ⟨hc.1, hc.2.1, by simp; omega, hc.2.2⟩
  exact if_congr hiff rfl rfl

theorem append_new_fields (sl : SkipList) (o : Nat) (d : String) (f : Nat → Bool) :
    (getNode (sl.append o d f).nodes sl.nodes.length).data = d ∧
    (getNode (sl.append o d f).nodes sl.nodes.length).offset = o ∧
    (getNode (sl.append o d f).nodes sl.nodes.length).pos = sl.length ∧
    levels (sl.append o d f).nodes sl.nodes.length = appendLevel sl f := by
  rw [append_def]
  show (getNode (linkLevels _ _ _).1 _).data = _ ∧ _
  have hf := linkLevels_fst_fields sl.nodes.length (appendLevel sl f)
    (sl.nodes ++ [newNode sl o d f]) sl.tails sl.nodes.length
  rw [getNode_append_len] at hf
  refine ⟨hf.1, hf.2.1, hf.2.2.1, ?_⟩
  show levels (linkLevels _ _ _).1 _ = _
  unfold levels
  rw [hf.2.2.2]
  exact List.length_replicate _ _

theorem append_new_slot (sl : SkipList) (o : Nat) (d : String) (f : Nat → Bool) (j : Nat)
    (htails : ∀ j2 k, sl.tails.getD j2 none = some k → k < sl.nodes.length) :
    slot (sl.append o d f).nodes sl.nodes.length j = none := by
  rw [append_def]
  show slot (linkLevels _ _ _).1 _ j = _
  rw [linkLevels_fst_slot,
    if_neg (fun hc => absurd (htails j sl.nodes.length hc.2.1) (by omega))]
  show (getNode (sl.nodes ++ [newNode sl o d f]) sl.nodes.length).next.getD j none = _
  rw [getNode_append_len]
  show (List.replicate (appendLevel sl f) none).getD j none = _
  rw [getD_replicate]
  by_cases hj : j < appendLevel sl f
  · rw [if_pos hj]
  · rw [if_neg hj]

/-! ### The structural invariant of reachable states -/

/-- Well-formedness of a `SkipList` state, established by `new` and kept
by every `append`: the arena length agrees with `length`, `head` is the
first record, every record has between `1` and `max_level` forward slots
(the first record has all of them), every forward link goes to a strictly
later record that participates in the link's level, the level-`0` chain
links the records in insertion order, and each tail slot holds the last
record participating in that level, with an empty forward slot there. -/
structure WF (sl : SkipList) : Prop where
  len_eq : sl.length = sl.nodes.length
  head_eq : sl.head = if sl.nodes.length = 0 then none else some 0
  tails_len : sl.max_level_idx + 1 = sl.tails.length
  node_pos : ∀ k, k < sl.nodes.length → (getNode sl.nodes k).pos = k
  node_lb : ∀ k, k < sl.nodes.length → 1 ≤ levels sl.nodes k
  node_ub : ∀ k, k < sl.nodes.length → levels sl.nodes k ≤ sl.tails.length
  head_top : 0 < sl.nodes.length → levels sl.nodes 0 = sl.tails.length
  links : ∀ k j k2, k < sl.nodes.length → slot sl.nodes k j = some k2 →
      k < k2 ∧ k2 < sl.nodes.length ∧ j < levels sl.nodes k2
  chain0 : ∀ k, k + 1 < sl.nodes.length → slot sl.nodes k 0 = some (k + 1)
  chain0_last : 0 < sl.nodes.length → slot sl.nodes (sl.nodes.length - 1) 0 = none
  tail_some : ∀ j k, sl.tails.getD j none = some k →
      k < sl.nodes.length ∧ j < levels sl.nodes k ∧ slot sl.nodes k j = none ∧
      ∀ k2, k2 < sl.nodes.length → j < levels sl.nodes k2 → k2 ≤ k
  tail_none : ∀ j, j < sl.tails.length → sl.tails.getD j none = none →
      ∀ k2, k2 < sl.nodes.length → ¬ j < levels sl.nodes k2

theorem WF_init (level : Nat) (hl : 1 ≤ level) : WF (SkipList.init level) := by
  refine ⟨rfl, rfl, ?_, ?_, ?_, ?_, ?_, ?_, ?_, ?_, ?_, ?_⟩
  · show level - 1 + 1 = (List.replicate level (none : Option Nat)).length
    rw [List.length_replicate]
    omega
  · exact fun k hk => absurd hk (Nat.not_lt_zero k)
  · exact fun k hk => absurd hk (Nat.not_lt_zero k)
  · exact fun k hk => absurd hk (Nat.not_lt_zero k)
  · exact fun h => absurd h (Nat.not_lt_zero 0)
  · exact fun k j k2 hk _ => absurd hk (Nat.not_lt_zero k)
  · exact fun k hk => absurd hk (Nat.not_lt_zero (k + 1))
  · exact fun h => absurd h (Nat.not_lt_zero 0)
  · intro j k h
    exfalso
    rw [show (SkipList.init level).tails = List.replicate level none from rfl,
      getD_replicate, ite_self] at h
    exact Option.noConfusion h
  · exact fun j hj h k2 hk2 => absurd hk2 (Nat.not_lt_zero k2)

theorem WF_append (sl : SkipList) (o : Nat) (d : String) (f : Nat → Bool) (hw : WF sl) :
    WF (sl.append o d f) := by
  have hnl : (sl.append o d f).nodes.length = sl.nodes.length + 1 := append_nodes_len sl o d f
  have htl : (sl.append o d f).tails.length = sl.tails.length := append_tails_len sl o d f
  have hLub : appendLevel sl f ≤ sl.tails.length := by
    have h1 := appendLevel_le sl f
    have h2 := hw.tails_len
    omega
  have hL1 : 1 ≤ appendLevel sl f := appendLevel_ge_one sl f
  have htails_bound : ∀ j2 k, sl.tails.getD j2 none = some k → k < sl.nodes.length :=
    fun j2 k h => (hw.tail_some j2 k h).1
  have hnew_slot : ∀ j, slot (sl.append o d f).nodes sl.nodes.length j = none :=
    fun j => append_new_slot sl o d f j htails_bound
  have hnew := append_new_fields sl o d f
  have hhead_n : sl.head.isNone = true ↔ sl.nodes.length = 0 := by
    rw [hw.head_eq]
    by_cases h0 : sl.nodes.length = 0
    · simp [h0]
    · simp [h0]
  refine ⟨?_, ?_, ?_, ?_, ?_, ?_, ?_, ?_, ?_, ?_, ?_, ?_⟩
  · rw [append_length, hnl, hw.len_eq]
  · rw [append_head, hnl, if_neg (Nat.succ_ne_zero sl.nodes.length)]
    by_cases h0 : sl.nodes.length = 0
    · rw [if_pos (hhead_n.mpr h0), h0]
    · have hbf : sl.head.isNone = false := by
        cases hb : sl.head.isNone
        · rfl
        · exact absurd (hhead_n.mp hb) h0
      rw [if_neg (by rw [hbf]; exact Bool.false_ne_true), hw.head_eq, if_neg h0]
  · rw [append_max_level_idx, htl]
    exact hw.tails_len
  · intro k hk
    rw [hnl] at hk
    by_cases hkn : k < sl.nodes.length
    · rw [(append_old_fields sl o d f k hkn).2.2.1]
      exact hw.node_pos k hkn
    · have hke : k = sl.nodes.length := by omega
      subst hke
      rw [hnew.2.2.1, hw.len_eq]
  · intro k hk
    rw [hnl] at hk
    by_cases hkn : k < sl.nodes.length
    · rw [(append_old_fields sl o d f k hkn).2.2.2]
      exact hw.node_lb k hkn
    · have hke : k = sl.nodes.length := by omega
      subst hke
      rw [hnew.2.2.2]
      exact hL1
  · intro k hk
    rw [hnl] at hk
    rw [htl]
    by_cases hkn : k < sl.nodes.length
    · rw [(append_old_fields sl o d f k hkn).2.2.2]
      exact hw.node_ub k hkn
    · have hke : k = sl.nodes.length := by omega
      subst hke
      rw [hnew.2.2.2]
      exact hLub
  · intro _
    rw [htl]
    by_cases h0 : sl.nodes.length = 0
    · have hh : sl.head.isNone = true := hhead_n.mpr h0
      have hLfull : appendLevel sl f = sl.max_level_idx + 1 := by
        unfold appendLevel
        rw [if_pos hh]
        omega
      have hlv := hnew.2.2.2
      rw [h0] at hlv
      rw [hlv, hLfull, hw.tails_len]
    · have h0lt : 0 < sl.nodes.length := Nat.pos_of_ne_zero h0
      rw [(append_old_fields sl o d f 0 h0lt).2.2.2]
      exact hw.head_top h0lt
  · intro k j k2 hk hs
    rw [hnl] at hk
    by_cases hkn : k < sl.nodes.length
    · rw [append_old_slot sl o d f k j hkn] at hs
      by_cases hcond : j < appendLevel sl f ∧ sl.tails.getD j none = some k ∧
          j < levels sl.nodes k
      · rw [if_pos hcond] at hs
        have hk2 : sl.nodes.length = k2 := Option.some.inj hs
        refine ⟨by omega, by rw [hnl]; omega, ?_⟩
        rw [← hk2, hnew.2.2.2]
        exact hcond.1
      · rw [if_neg hcond] at hs
        obtain ⟨h1, h2, h3⟩ := hw.links k j k2 hkn hs
        refine ⟨h1, by rw [hnl]; omega, ?_⟩
        rw [(append_old_fields sl o d f k2 h2).2.2.2]
        exact h3
    · have hke : k = sl.nodes.length := by omega
      subst hke
      rw [hnew_slot j] at hs
      exact Option.noConfusion hs
  · intro k hk1
    rw [hnl] at hk1
    have hkn : k < sl.nodes.length := by omega
    rw [append_old_slot sl o d f k 0 hkn]
    by_cases hlast : k + 1 < sl.nodes.length
    · have hold := hw.chain0 k hlast
      rw [if_neg (fun hc => by
        have hnone := (hw.tail_some 0 k hc.2.1).2.2.1
        rw [hold] at hnone
        exact Option.noConfusion hnone), hold]
    · have hk1n : k + 1 = sl.nodes.length := by omega
      have hts0 : sl.tails.getD 0 none = some k := by
        cases hts : sl.tails.getD 0 none with
        | none =>
          exfalso
          have h0tl : 0 < sl.tails.length := by
            have := hw.tails_len
            omega
          exact hw.tail_none 0 h0tl hts k (by omega)
            (hw.node_lb k (by omega))
        | some m =>
          have hm := hw.tail_some 0 m hts
          have hmax := hm.2.2.2 k (by omega) (hw.node_lb k (by omega))
          have hm1 := hm.1
          exact congrArg some (by omega)
      rw [if_pos ⟨by omega, hts0, hw.node_lb k (by omega)⟩, hk1n]
  · intro _
    rw [hnl, Nat.add_sub_cancel]
    exact hnew_slot 0
  · intro j k hts
    rw [append_tails_getD] at hts
    by_cases hcond : j < appendLevel sl f ∧ j < sl.tails.length
    · rw [if_pos hcond] at hts
      have hk : sl.nodes.length = k := Option.some.inj hts
      subst hk
      refine ⟨by rw [hnl]; omega, ?_, hnew_slot j, ?_⟩
      · rw [hnew.2.2.2]
        exact hcond.1
      · intro k2 hk2 _
        rw [hnl] at hk2
        omega
    · rw [if_neg hcond] at hts
      have hold := hw.tail_some j k hts
      have hjts : j < sl.tails.length := getD_some_lt_length _ _ _ hts
      have hjL : ¬ j < appendLevel sl f := fun hc => hcond ⟨hc, hjts⟩
      have hk1 := hold.1
      refine ⟨by rw [hnl]; omega, ?_, ?_, ?_⟩
      · rw [(append_old_fields sl o d f k hold.1).2.2.2]
        exact hold.2.1
      · rw [append_old_slot sl o d f k j hold.1, if_neg (fun hc => hjL hc.1)]
        exact hold.2.2.1
      · intro k2 hk2 hlev
        rw [hnl] at hk2
        by_cases hk2n : k2 < sl.nodes.length
        · refine hold.2.2.2 k2 hk2n ?_
          rw [(append_old_fields sl o d f k2 hk2n).2.2.2] at hlev
          exact hlev
        · exfalso
          have hk2e : k2 = sl.nodes.length := by omega
          rw [hk2e, hnew.2.2.2] at hlev
          exact hjL hlev
  · intro j hj hts k2 hk2 hlev
    rw [htl] at hj
    rw [append_tails_getD] at hts
    by_cases hcond : j < appendLevel sl f ∧ j < sl.tails.length
    · rw [if_pos hcond] at hts
      exact Option.noConfusion hts
    · rw [if_neg hcond] at hts
      have hjL : ¬ j < appendLevel sl f := fun hc => hcond ⟨hc, hj⟩
      rw [hnl] at hk2
      by_cases hk2n : k2 < sl.nodes.length
      · refine hw.tail_none j hj hts k2 hk2n ?_
        rw [(append_old_fields sl o d f k2 hk2n).2.2.2] at hlev
        exact hlev
      · have hk2e : k2 = sl.nodes.length := by omega
        rw [hk2e, hnew.2.2.2] at hlev
        exact hjL hlev

/-! ### Reachable states: `new` followed by a sequence of `append`s -/

def foldAppend (sl : SkipList) (apps : List App) : SkipList :=
  apps.foldl (fun s a => s.append a.1 a.2.1 a.2.2) sl

theorem foldAppend_nil (sl : SkipList) : foldAppend sl [] = sl := rfl

theorem foldAppend_cons (sl : SkipList) (a : App) (apps : List App) :
    foldAppend sl (a :: apps) = foldAppend (sl.append a.1 a.2.1 a.2.2) apps := rfl

theorem build_eq_foldAppend (level : Nat) (apps : List App) :
    SkipList.build level apps = foldAppend (SkipList.init level) apps := rfl

theorem WF_foldAppend : ∀ (apps : List App) (sl : SkipList), WF sl → WF (foldAppend sl apps)
  | [], _, hw => hw
  | a :: apps, sl, hw => by
    rw [foldAppend_cons]
    exact WF_foldAppend apps _ (WF_append sl a.1 a.2.1 a.2.2 hw)

theorem WF_build (level : Nat) (hl : 1 ≤ level) (apps : List App) :
    WF (SkipList.build level apps) :=
  WF_foldAppend apps _ (WF_init level hl)

/-- Offsets are strictly increasing along the arena (the monotone-append
precondition of the design document, §3 and §4.3). -/
def SortedOffsets (sl : SkipList) : Prop :=
  ∀ k, k + 1 < sl.nodes.length →
    (getNode sl.nodes k).offset < (getNode sl.nodes (k + 1)).offset

theorem sorted_append (sl : SkipList) (o : Nat) (d : String) (f : Nat → Bool)
    (hs : SortedOffsets sl)
    (hb : ∀ k, k < sl.nodes.length → (getNode sl.nodes k).offset < o) :
    SortedOffsets (sl.append o d f) := by
  intro k hk
  rw [append_nodes_len] at hk
  by_cases hk1 : k + 1 < sl.nodes.length
  · rw [(append_old_fields sl o d f k (by omega)).2.1,
      (append_old_fields sl o d f (k + 1) hk1).2.1]
    exact hs k hk1
  · have hke : k + 1 = sl.nodes.length := by omega
    rw [(append_old_fields sl o d f k (by omega)).2.1, hke,
      (append_new_fields sl o d f).2.1]
    exact hb k (by omega)

theorem sorted_foldAppend : ∀ (apps : List App) (sl : SkipList), SortedOffsets sl →
    (∀ k, k < sl.nodes.length → ∀ x ∈ apps.map (fun a => a.1),
      (getNode sl.nodes k).offset < x) →
    (apps.map (fun a => a.1)).Pairwise (· < ·) →
    SortedOffsets (foldAppend sl apps)
  | [], _, hs, _, _ => hs
  | a :: apps, sl, hs, hb, hp => by
    rw [foldAppend_cons]
    rw [List.map_cons, List.pairwise_cons] at hp
    have hbo : ∀ k, k < sl.nodes.length → (getNode sl.nodes k).offset < a.1 :=
      fun k hk => hb k hk a.1 (by rw [List.map_cons]; exact List.mem_cons_self _ _)
    refine sorted_foldAppend apps _ (sorted_append sl a.1 a.2.1 a.2.2 hs hbo) ?_ hp.2
    intro k hk x hx
    rw [append_nodes_len] at hk
    by_cases hkn : k < sl.nodes.length
    · rw [(append_old_fields sl a.1 a.2.1 a.2.2 k hkn).2.1]
      exact hb k hkn x (by rw [List.map_cons]; exact List.mem_cons_of_mem _ hx)
    · have hke : k = sl.nodes.length := by omega
      subst hke
      rw [(append_new_fields sl a.1 a.2.1 a.2.2).2.1]
      exact hp.1 x hx

theorem sorted_build (level : Nat) (apps : List App)
    (hmono : (apps.map (fun a => a.1)).Pairwise (· < ·)) :
    SortedOffsets (SkipList.build level apps) := by
  rw [build_eq_foldAppend]
  refine sorted_foldAppend apps _ ?_ ?_ hmono
  · exact fun k hk => absurd hk (Nat.not_lt_zero (k + 1))
  · exact fun k hk => absurd hk (Nat.not_lt_zero k)

/-- Strictly sorted offsets across arbitrary index gaps. -/
theorem sorted_lt (sl : SkipList) (hs : SortedOffsets sl) :
    ∀ a b, a < b → b < sl.nodes.length →
      (getNode sl.nodes a).offset < (getNode sl.nodes b).offset := by
  have haux : ∀ (dd a : Nat), a + dd + 1 < sl.nodes.length →
      (getNode sl.nodes a).offset < (getNode sl.nodes (a + dd + 1)).offset := by
    intro dd
    induction dd with
    | zero => exact fun a h => hs a h
    | succ e ih =>
      intro a h
      have h1 : a + e + 1 < sl.nodes.length := by omega
      refine lt_trans (ih a h1) ?_
      have h2 := hs (a + e + 1) (by omega)
      have he : a + e + 1 + 1 = a + (e + 1) + 1 := by omega
      rw [he] at h2
      exact h2
  intro a b hab hb
  have hd : b = a + (b - a - 1) + 1 := by omega
  rw [hd]
  exact haux (b - a - 1) a (by omega)

theorem foldAppend_nodes_len : ∀ (apps : List App) (sl : SkipList),
    (foldAppend sl apps).nodes.length = sl.nodes.length + apps.length
  | [], _ => rfl
  | a :: apps, sl => by
    rw [foldAppend_cons, foldAppend_nodes_len apps _, append_nodes_len]
    simp
    omega

theorem build_nodes_len (level : Nat) (apps : List App) :
    (SkipList.build level apps).nodes.length = apps.length := by
  rw [build_eq_foldAppend, foldAppend_nodes_len,
    show (SkipList.init level).nodes.length = 0 from rfl]
  omega

/-- Every record of a folded state either was already present (with its
offset and data unchanged) or records the offset and payload of one of
the performed `append` calls. -/
theorem foldAppend_nodes_from : ∀ (apps : List App) (sl : SkipList) (k : Nat),
    k < (foldAppend sl apps).nodes.length →
    (k < sl.nodes.length ∧
      (getNode (foldAppend sl apps).nodes k).offset = (getNode sl.nodes k).offset ∧
      (getNode (foldAppend sl apps).nodes k).data = (getNode sl.nodes k).data) ∨
    (∃ a ∈ apps, (getNode (foldAppend sl apps).nodes k).offset = a.1 ∧
      (getNode (foldAppend sl apps).nodes k).data = a.2.1)
  | [], _, k, hk => Or.inl ⟨hk, rfl, rfl⟩
  | a :: apps, sl, k, hk => by
    rw [foldAppend_cons] at hk ⊢
    rcases foldAppend_nodes_from apps _ k hk with ⟨hk2, ho, hd⟩ | ⟨b, hb, ho, hd⟩
    · rw [append_nodes_len] at hk2
      by_cases hkn : k < sl.nodes.length
      · refine Or.inl ⟨hkn, ?_, ?_⟩
        · rw [ho, (append_old_fields sl a.1 a.2.1 a.2.2 k hkn).2.1]
        · rw [hd, (append_old_fields sl a.1 a.2.1 a.2.2 k hkn).1]
      · have hke : k = sl.nodes.length := by omega
        subst hke
        refine Or.inr ⟨a, List.mem_cons_self _ _, ?_, ?_⟩
        · rw [ho, (append_new_fields sl a.1 a.2.1 a.2.2).2.1]
        · rw [hd, (append_new_fields sl a.1 a.2.1 a.2.2).1]
    · exact Or.inr ⟨b, List.mem_cons_of_mem _ hb, ho, hd⟩

/-- Records already present keep their offset, data and level count under
any further sequence of `append`s. -/
theorem foldAppend_preserve : ∀ (apps : List App) (sl : SkipList) (k : Nat),
    k < sl.nodes.length →
    (getNode (foldAppend sl apps).nodes k).offset = (getNode sl.nodes k).offset ∧
    (getNode (foldAppend sl apps).nodes k).data = (getNode sl.nodes k).data ∧
    levels (foldAppend sl apps).nodes k = levels sl.nodes k
  | [], _, _, _ => ⟨rfl, rfl, rfl⟩
  | a :: apps, sl, k, hk => by
    rw [foldAppend_cons]
    have hstep := append_old_fields sl a.1 a.2.1 a.2.2 k hk
    have hrest := foldAppend_preserve apps (sl.append a.1 a.2.1 a.2.2) k
      (by rw [append_nodes_len]; omega)
    exact ⟨hrest.1.trans hstep.2.1, hrest.2.1.trans hstep.1, hrest.2.2.trans hstep.2.2.2⟩

/-! ### Behaviour of `find` -/

theorem find_of_head_none (sl : SkipList) (t : Nat) (hh : sl.head = none) :
    sl.find t = Except.ok none := by
  unfold SkipList.find
  rw [hh]

theorem find_of_head_some (sl : SkipList) (t h0 : Nat) (hh : sl.head = some h0) :
    sl.find t =
      match startLevelWalk sl.nodes h0 sl.max_level_idx with
      | none => Except.error ()
      | some startLevel =>
          Except.ok (descendFrom sl.nodes t (sl.nodes.length + 1) startLevel h0) := by
  unfold SkipList.find
  rw [hh]

/-- The within-level walk only ever stands on arena indices that are in
bounds, provided every link target is. -/
theorem walkLevel_lt (nodes : List Node) (t lvl : Nat)
    (hlinks : ∀ k j k2, k < nodes.length → slot nodes k j = some k2 → k2 < nodes.length) :
    ∀ fuel i, i < nodes.length → walkLevel nodes t lvl fuel i < nodes.length
  | 0, _, hi => hi
  | fuel + 1, i, hi => by
    cases hs : slot nodes i lvl with
    | none =>
      simp only [walkLevel]
      rw [hs]
      exact hi
    | some j =>
      simp only [walkLevel]
      rw [hs]
      show (if (getNode nodes j).offset ≤ t then walkLevel nodes t lvl fuel j else i) <
        nodes.length
      by_cases hle : (getNode nodes j).offset ≤ t
      · rw [if_pos hle]
        exact walkLevel_lt nodes t lvl hlinks fuel j (hlinks i lvl j hi hs)
      · rw [if_neg hle]
        exact hi

/-- Soundness of the descent: a returned payload is the payload of an
actual record whose offset is exactly the target. -/
theorem descend_sound (nodes : List Node) (t fuel : Nat)
    (hlinks : ∀ k j k2, k < nodes.length → slot nodes k j = some k2 → k2 < nodes.length) :
    ∀ (lvl i : Nat) (d : String) (L : Nat), i < nodes.length →
      descendFrom nodes t fuel lvl i = some (d, L) →
      ∃ k, k < nodes.length ∧ (getNode nodes k).offset = t ∧ (getNode nodes k).data = d
  | 0, i, d, L, hi, heq => by
    have hj := walkLevel_lt nodes t 0 hlinks fuel i hi
    simp only [descendFrom] at heq
    by_cases ht : (getNode nodes (walkLevel nodes t 0 fuel i)).offset = t
    · rw [if_pos ht] at heq
      exact ⟨_, hj, ht, ((Prod.mk.injEq _ _ _ _).mp (Option.some.inj heq)).1⟩
    · rw [if_neg ht] at heq
      exact Option.noConfusion heq
  | lvl + 1, i, d, L, hi, heq => by
    have hj := walkLevel_lt nodes t (lvl + 1) hlinks fuel i hi
    simp only [descendFrom] at heq
    by_cases ht : (getNode nodes (walkLevel nodes t (lvl + 1) fuel i)).offset = t
    · rw [if_pos ht] at heq
      exact ⟨_, hj, ht, ((Prod.mk.injEq _ _ _ _).mp (Option.some.inj heq)).1⟩
    · rw [if_neg ht] at heq
      exact descend_sound nodes t fuel hlinks lvl _ d L hj heq

theorem find_ok_some (sl : SkipList) (hw : WF sl) (t : Nat) (d : String) (L : Nat)
    (h : sl.find t = Except.ok (some (d, L))) :
    ∃ k, k < sl.nodes.length ∧ (getNode sl.nodes k).offset = t ∧
      (getNode sl.nodes k).data = d := by
  cases hh : sl.head with
  | none =>
    rw [find_of_head_none sl t hh] at h
    exact absurd (Except.ok.inj h) (by simp)
  | some h0 =>
    have hn0 : sl.nodes.length ≠ 0 := by
      intro hz
      rw [hw.head_eq, if_pos hz] at hh
      exact Option.noConfusion hh
    have h00 : h0 = 0 := by
      rw [hw.head_eq, if_neg hn0] at hh
      exact (Option.some.inj hh).symm
    rw [find_of_head_some sl t h0 hh] at h
    cases hsw : startLevelWalk sl.nodes h0 sl.max_level_idx with
    | none =>
      rw [hsw] at h
      exact Except.noConfusion h
    | some SL =>
      rw [hsw] at h
      refine descend_sound sl.nodes t (sl.nodes.length + 1)
        (fun k j k2 hk hs => (hw.links k j k2 hk hs).2.1) SL h0 d L ?_ (Except.ok.inj h)
      rw [h00]
      exact Nat.pos_of_ne_zero hn0

theorem startLevelWalk_some (nodes : List Node) (h0 : Nat)
    (hbot : (slot nodes h0 0).isSome = true) :
    ∀ lvl0, ∃ L, L ≤ lvl0 ∧ startLevelWalk nodes h0 lvl0 = some L
  | 0 => ⟨0, le_refl 0, by unfold startLevelWalk; rw [if_pos hbot]⟩
  | lvl + 1 => by
    by_cases hs : (slot nodes h0 (lvl + 1)).isSome = true
    · exact ⟨lvl + 1, le_refl _, by unfold startLevelWalk; rw [if_pos hs]⟩
    · obtain ⟨L, hL, heq⟩ := startLevelWalk_some nodes h0 hbot lvl
      exact ⟨L, by omega, by unfold startLevelWalk; rw [if_neg hs]; exact heq⟩

/-- On a well-formed, offset-sorted list with at least two records, `find`
applied to the first record's offset succeeds and returns its payload,
found at the start level of the descent. -/
theorem find_first (sl : SkipList) (hw : WF sl) (hs : SortedOffsets sl)
    (h2 : 2 ≤ sl.nodes.length) :
    ∃ L, L ≤ sl.max_level_idx ∧
      sl.find ((getNode sl.nodes 0).offset) =
        Except.ok (some ((getNode sl.nodes 0).data, L)) := by
  have hh : sl.head = some 0 := by
    rw [hw.head_eq, if_neg (by omega)]
  have hslot : slot sl.nodes 0 0 = some 1 := hw.chain0 0 (by omega)
  have hbot : (slot sl.nodes 0 0).isSome = true := by rw [hslot]; rfl
  obtain ⟨L, hL, hsw⟩ := startLevelWalk_some sl.nodes 0 hbot sl.max_level_idx
  have hwalk : ∀ lvl,
      walkLevel sl.nodes ((getNode sl.nodes 0).offset) lvl (sl.nodes.length + 1) 0 = 0 := by
    intro lvl
    cases hsl : slot sl.nodes 0 lvl with
    | none =>
      simp only [walkLevel]
      rw [hsl]
    | some j =>
      have hlk := hw.links 0 lvl j (by omega) hsl
      have hlt := sorted_lt sl hs 0 j hlk.1 hlk.2.1
      simp only [walkLevel]
      rw [hsl]
      show (if (getNode sl.nodes j).offset ≤ (getNode sl.nodes 0).offset then _ else 0) = 0
      rw [if_neg (by omega)]
  have hdesc : descendFrom sl.nodes ((getNode sl.nodes 0).offset) (sl.nodes.length + 1) L 0 =
      some ((getNode sl.nodes 0).data, L) := by
    cases L with
    | zero =>
      simp only [descendFrom]
      rw [hwalk 0, if_pos rfl]
    | succ l =>
      simp only [descendFrom]
      rw [hwalk (l + 1), if_pos rfl]
  refine ⟨L, hL, ?_⟩
  rw [find_of_head_some sl _ 0 hh, hsw]
  show Except.ok (descendFrom sl.nodes ((getNode sl.nodes 0).offset)
    (sl.nodes.length + 1) L 0) = _
  rw [hdesc]

/-! ### Per-level forward chains -/

/-- The chain of records obtained from a starting link by repeatedly
following level-`lvl` forward links.  On reachable states every link goes
to a strictly larger index, so `sl.nodes.length + 1` fuel is enough to
exhaust any chain. -/
def chainAux (nodes : List Node) (lvl : Nat) : Nat → Option Nat → List Nat
  | 0, _ => []
  | _ + 1, none => []
  | fuel + 1, some i => i :: chainAux nodes lvl fuel (slot nodes i lvl)

/-- The level-`lvl` chain of the list, starting at `head`. -/
def levelChain (sl : SkipList) (lvl : Nat) : List Nat :=
  chainAux sl.nodes lvl (sl.nodes.length + 1) sl.head

theorem chainAux_none (nodes : List Node) (lvl : Nat) :
    ∀ fuel, chainAux nodes lvl fuel none = []
  | 0 => rfl
  | _ + 1 => rfl

/-- Chains only visit in-bounds records and are strictly increasing in
arena index. -/
theorem chainAux_bounded (nodes : List Node) (lvl : Nat)
    (hlinks : ∀ k j k2, k < nodes.length → slot nodes k j = some k2 →
      k < k2 ∧ k2 < nodes.length) :
    ∀ fuel i, i < nodes.length →
      (∀ x ∈ chainAux nodes lvl fuel (some i), i ≤ x ∧ x < nodes.length) ∧
      (chainAux nodes lvl fuel (some i)).Pairwise (· < ·)
  | 0, i, _ => ⟨fun x hx => absurd hx (List.not_mem_nil x), List.Pairwise.nil⟩
  | fuel + 1, i, hi => by
    show (∀ x ∈ i :: chainAux nodes lvl fuel (slot nodes i lvl), _) ∧
      (i :: chainAux nodes lvl fuel (slot nodes i lvl)).Pairwise (· < ·)
    cases hs : slot nodes i lvl with
    | none =>
      rw [chainAux_none]
      constructor
      · intro x hx
        rw [List.mem_singleton] at hx
        exact ⟨le_of_eq hx.symm, hx ▸ hi⟩
      · exact List.pairwise_cons.mpr ⟨fun x hx => absurd hx (List.not_mem_nil x),
          List.Pairwise.nil⟩
    | some j =>
      obtain ⟨hij, hj⟩ := hlinks i lvl j hi hs
      obtain ⟨hmem, hpair⟩ := chainAux_bounded nodes lvl hlinks fuel j hj
      constructor
      · intro x hx
        rcases List.mem_cons.mp hx with hx | hx
        · exact ⟨le_of_eq hx.symm, hx ▸ hi⟩
        · obtain ⟨hjx, hxn⟩ := hmem x hx
          exact ⟨by omega, hxn⟩
      · refine List.pairwise_cons.mpr ⟨?_, hpair⟩
        intro x hx
        obtain ⟨hjx, _⟩ := hmem x hx
        omega

/-- With the level-0 chain invariants, the chain from index `i` is exactly
the index interval `[i, nodes.length)`. -/
theorem chainAux_zero_eq_range (nodes : List Node)
    (hchain : ∀ k, k + 1 < nodes.length → slot nodes k 0 = some (k + 1))
    (hlast : 0 < nodes.length → slot nodes (nodes.length - 1) 0 = none) :
    ∀ fuel i, i < nodes.length → nodes.length - i ≤ fuel →
      chainAux nodes 0 fuel (some i) = List.range' i (nodes.length - i)
  | 0, i, hi, hf => by omega
  | fuel + 1, i, hi, hf => by
    show i :: chainAux nodes 0 fuel (slot nodes i 0) = _
    have hsplit : nodes.length - i = (nodes.length - i - 1) + 1 := by omega
    rw [hsplit, List.range'_succ]
    by_cases hi1 : i + 1 < nodes.length
    · rw [hchain i hi1,
        chainAux_zero_eq_range nodes hchain hlast fuel (i + 1) hi1 (by omega)]
      have : nodes.length - (i + 1) = nodes.length - i - 1 := by omega
      rw [this]
    · have hie : i = nodes.length - 1 := by omega
      have hz : nodes.length - i - 1 = 0 := by omega
      have hnone : slot nodes i 0 = none := by
        rw [hie]
        exact hlast (by omega)
      rw [hnone, chainAux_none, hz]
      rfl

theorem levelChain_zero (sl : SkipList) (hw : WF sl) (h0 : 0 < sl.nodes.length) :
    levelChain sl 0 = List.range sl.nodes.length := by
  unfold levelChain
  rw [hw.head_eq, if_neg (by omega),
    chainAux_zero_eq_range sl.nodes hw.chain0 hw.chain0_last (sl.nodes.length + 1) 0 h0
      (by omega),
    List.range_eq_range']
  rfl

theorem levelChain_of_head_none (sl : SkipList) (hh : sl.head = none) (lvl : Nat) :
    levelChain sl lvl = [] := by
  unfold levelChain
  rw [hh]
  exact chainAux_none _ _ _

/-- A strictly increasing list of naturals below `n` is a subsequence of
`range n`. -/
theorem pairwise_lt_sublist_range :
    ∀ (n : Nat) (l : List Nat), l.Pairwise (· < ·) → (∀ x ∈ l, x < n) →
      l.Sublist (List.range n)
  | 0, l, _, hb => by
    cases l with
    | nil => exact List.nil_sublist _
    | cons a t => exact absurd (hb a (List.mem_cons_self a t)) (Nat.not_lt_zero a)
  | n + 1, l, hp, hb => by
    rcases List.eq_nil_or_concat l with hnil | ⟨l2, b, hcat⟩
    · rw [hnil]
      exact List.nil_sublist _
    · rw [hcat, List.concat_eq_append] at hp hb ⊢
      rw [List.pairwise_append] at hp
      obtain ⟨hp2, _, hlt⟩ := hp
      rw [List.range_succ]
      by_cases hbn : b = n
      · refine List.Sublist.append ?_ (by rw [hbn])
        refine pairwise_lt_sublist_range n l2 hp2 ?_
        intro x hx
        have := hlt x hx b (List.mem_singleton.mpr rfl)
        have hbb := hb b (List.mem_append.mpr (Or.inr (List.mem_singleton.mpr rfl)))
        omega
      · have hbound : ∀ x ∈ l2 ++ [b], x < n := by
          intro x hx
          rcases List.mem_append.mp hx with hx | hx
          · have h1 := hlt x hx b (List.mem_singleton.mpr rfl)
            have h2 := hb b (List.mem_append.mpr (Or.inr (List.mem_singleton.mpr rfl)))
            omega
          · rw [List.mem_singleton] at hx
            have h2 := hb b (List.mem_append.mpr (Or.inr (List.mem_singleton.mpr rfl)))
            omega
        refine (pairwise_lt_sublist_range n (l2 ++ [b]) ?_ hbound).trans
          (List.sublist_append_left _ _)
        rw [List.pairwise_append]
        exact ⟨hp2, List.pairwise_singleton _ _, hlt⟩

/-- Mapping a strictly index-increasing chain through the (sorted) offsets
yields strictly increasing offsets. -/
theorem pairwise_offsets (sl : SkipList) (hs : SortedOffsets sl) (l : List Nat)
    (hp : l.Pairwise (· < ·)) (hb : ∀ x ∈ l, x < sl.nodes.length) :
    (l.map (fun k => (getNode sl.nodes k).offset)).Pairwise (· < ·) := by
  rw [List.pairwise_map]
  refine hp.imp_of_mem ?_
  intro a b ha hb2 hab
  exact sorted_lt sl hs a b hab (hb b hb2)

theorem foldAppend_max : ∀ (apps : List App) (sl : SkipList),
    (foldAppend sl apps).max_level_idx = sl.max_level_idx
  | [], _ => rfl
  | a :: apps, sl => by
    rw [foldAppend_cons, foldAppend_max apps _, append_max_level_idx]

theorem build_max (level : Nat) (apps : List App) :
    (SkipList.build level apps).max_level_idx = level - 1 := by
  rw [build_eq_foldAppend, foldAppend_max]
  rfl

/-! ### An interpreter over the public operations -/

/-- One call of the public API. -/
inductive SLOp where
  | insert (o : Nat) (d : String) (f : Nat → Bool)
  | lookup (o : Nat)

/-- Run a sequence of calls, returning the final state and the results of
the `find` calls in order.  `find` takes `&self` in the source and
performs only shared `borrow()`s, so its embedding consumes no state. -/
def runOps (sl : SkipList) : List SLOp → SkipList × List (Except Unit (Option (String × Nat)))
  | [] => (sl, [])
  | SLOp.insert o d f :: rest => runOps (sl.append o d f) rest
  | SLOp.lookup o :: rest =>
    let r := sl.find o
    let rest2 := runOps sl rest
    (rest2.1, r :: rest2.2)

/-! ### The claims -/

/-- Claim C1 (the code violates it).  The claim asserts that after any
strictly increasing sequence of appends, `find(o)` returns the data
appended at `o`.  With exactly one record appended (`new(6)`;
`append(0, "v0")`), every forward slot of `head` is empty, so `find`'s
initial start-level loop decrements `start_level` past `0` — a `usize`
underflow panic — instead of returning `Some(("v0", _))`: the embedded
`find` yields the panic marker `Except.error ()`. -/
theorem claim_c1_find_panics_on_singleton :
    (SkipList.build 6 [(0, "v0", fun _ => false)]).find 0 = Except.error () := rfl

/-- Claim C2 (the code violates it).  The claim asserts `find` always
terminates without panicking for `max_level ≥ 1`; the embedded `find` on
a one-record list (`new(2)`; `append(7, "a")`; `find(3)`) reaches the
`usize` underflow of `start_level -= 1` (modelled `Except.error ()`),
because the single record's forward slots are all `None` and the
start-level loop has no populated slot to break on.  (`append` itself is
total: see `SkipList.append`.) -/
theorem claim_c2_find_start_walk_panics :
    (SkipList.build 2 [(7, "a", fun _ => false)]).find 3 = Except.error () := rfl

/-- Claim C3: `new(0)` fails at construction — computing
`max_level_idx = 0 - 1` underflows `usize` (a panic, modelled `none`), so
no usable `SkipList` is produced — while every `level ≠ 0` yields the
empty list with `level` tail slots and `max_level_idx = level - 1`. -/
theorem claim_c3_new_rejects_zero :
    SkipList.new 0 = none ∧
    ∀ level, level ≠ 0 → SkipList.new level = some (SkipList.init level) ∧
      (SkipList.init level).max_level_idx + 1 = level ∧
      (SkipList.init level).tails.length = level := by
  refine ⟨rfl, ?_⟩
  intro level hl
  refine ⟨by unfold SkipList.new; rw [if_neg hl], ?_, ?_⟩
  · show level - 1 + 1 = level
    omega
  · exact List.length_replicate level none

theorem claim_c3_witness : 3 ≠ 0 ∧ SkipList.new 3 = some (SkipList.init 3) :=
  ⟨by decide, (claim_c3_new_rejects_zero.2 3 (by decide)).1⟩

/-- Claim C4: after appends with strictly increasing offsets into a list
with `max_level ≥ 1`, the forward chain at every level `L` has at most
`n` records (`n` = number of appends), is a subsequence of the level-0
chain, and carries strictly increasing offsets. -/
theorem claim_c4_level_chains (level : Nat) (apps : List App) (L : Nat) (hl : 1 ≤ level)
    (hmono : (apps.map (fun a => a.1)).Pairwise (· < ·)) :
    (levelChain (SkipList.build level apps) L).length ≤ apps.length ∧
    (levelChain (SkipList.build level apps) L).Sublist
      (levelChain (SkipList.build level apps) 0) ∧
    ((levelChain (SkipList.build level apps) L).map
      (fun k => (getNode (SkipList.build level apps).nodes k).offset)).Pairwise (· < ·) := by
  have hw := WF_build level hl apps
  have hsort := sorted_build level apps hmono
  have hlen := build_nodes_len level apps
  by_cases h0 : (SkipList.build level apps).nodes.length = 0
  · have hh : (SkipList.build level apps).head = none := by
      rw [hw.head_eq, if_pos h0]
    rw [levelChain_of_head_none _ hh L]
    exact ⟨by simp, List.nil_sublist _, List.Pairwise.nil⟩
  · have h0lt : 0 < (SkipList.build level apps).nodes.length := Nat.pos_of_ne_zero h0
    have hh : (SkipList.build level apps).head = some 0 := by
      rw [hw.head_eq, if_neg h0]
    obtain ⟨hmem, hpair⟩ := chainAux_bounded (SkipList.build level apps).nodes L
      (fun k j k2 hk hs => ⟨(hw.links k j k2 hk hs).1, (hw.links k j k2 hk hs).2.1⟩)
      ((SkipList.build level apps).nodes.length + 1) 0 h0lt
    have hlc : levelChain (SkipList.build level apps) L =
        chainAux (SkipList.build level apps).nodes L
          ((SkipList.build level apps).nodes.length + 1) (some 0) := by
      unfold levelChain
      rw [hh]
    rw [hlc]
    have hsub := pairwise_lt_sublist_range (SkipList.build level apps).nodes.length _
      hpair (fun x hx => (hmem x hx).2)
    refine ⟨?_, ?_, ?_⟩
    · have h1 := hsub.length_le
      rw [List.length_range] at h1
      omega
    · rw [levelChain_zero _ hw h0lt]
      exact hsub
    · exact pairwise_offsets _ hsort _ hpair (fun x hx => (hmem x hx).2)

theorem claim_c4_witness :
    1 ≤ 2 ∧
    (levelChain (SkipList.build 2 [(0, "a", fun _ => false), (1, "b", fun _ => false)]) 1).length
      ≤ 2 :=
  ⟨by decide, (claim_c4_level_chains 2 [(0, "a", fun _ => false), (1, "b", fun _ => false)] 1
    (by decide) (by decide)).1⟩

/-- Claim C5: `append` always succeeds (the embedding is total and its
per-level tail indexing stays within `tails`, `1 ≤ level ≤ tails.length`);
it grows `length` and the arena by exactly one, sets `head` only when the
list was empty, and its only effect on a pre-existing record `k` is to set
the level-`j` forward slot to the new record for exactly those levels `j`
the new record participates in where `k` was the level-`j` tail — offsets,
data, positions and slot counts of existing records are unchanged. -/
theorem claim_c5_append_frame (level : Nat) (apps : List App) (o : Nat) (d : String)
    (f : Nat → Bool) (hl : 1 ≤ level) :
    ((SkipList.build level apps).append o d f).length =
      (SkipList.build level apps).length + 1 ∧
    ((SkipList.build level apps).append o d f).nodes.length =
      (SkipList.build level apps).nodes.length + 1 ∧
    ((SkipList.build level apps).append o d f).head =
      (if (SkipList.build level apps).head.isNone
       then some (SkipList.build level apps).nodes.length
       else (SkipList.build level apps).head) ∧
    1 ≤ appendLevel (SkipList.build level apps) f ∧
    appendLevel (SkipList.build level apps) f ≤ (SkipList.build level apps).tails.length ∧
    ∀ k, k < (SkipList.build level apps).nodes.length →
      (getNode ((SkipList.build level apps).append o d f).nodes k).offset =
        (getNode (SkipList.build level apps).nodes k).offset ∧
      (getNode ((SkipList.build level apps).append o d f).nodes k).data =
        (getNode (SkipList.build level apps).nodes k).data ∧
      (getNode ((SkipList.build level apps).append o d f).nodes k).pos =
        (getNode (SkipList.build level apps).nodes k).pos ∧
      levels ((SkipList.build level apps).append o d f).nodes k =
        levels (SkipList.build level apps).nodes k ∧
      ∀ j, slot ((SkipList.build level apps).append o d f).nodes k j =
        if j < appendLevel (SkipList.build level apps) f ∧
            (SkipList.build level apps).tails.getD j none = some k
        then some (SkipList.build level apps).nodes.length
        else slot (SkipList.build level apps).nodes k j := by
  have hw := WF_build level hl apps
  refine ⟨append_length _ o d f, append_nodes_len _ o d f, append_head _ o d f,
    appendLevel_ge_one _ f, ?_, ?_⟩
  · have h1 := appendLevel_le (SkipList.build level apps) f
    have h2 := hw.tails_len
    omega
  · intro k hk
    have hfields := append_old_fields (SkipList.build level apps) o d f k hk
    refine ⟨hfields.2.1, hfields.1, hfields.2.2.1, hfields.2.2.2, ?_⟩
    intro j
    rw [append_old_slot (SkipList.build level apps) o d f k j hk]
    by_cases hc : j < appendLevel (SkipList.build level apps) f ∧
        (SkipList.build level apps).tails.getD j none = some k
    · rw [if_pos ⟨hc.1, hc.2, (hw.tail_some j k hc.2).2.1⟩, if_pos hc]
    · rw [if_neg (fun hx => hc ⟨hx.1, hx.2.1⟩), if_neg hc]

theorem claim_c5_witness :
    1 ≤ 2 ∧
    ((SkipList.build 2 [(0, "a", fun _ => false)]).append 1 "b" (fun _ => false)).length =
      (SkipList.build 2 [(0, "a", fun _ => false)]).length + 1 :=
  ⟨by decide,
    (claim_c5_append_frame 2 [(0, "a", fun _ => false)] 1 "b" (fun _ => false) (by decide)).1⟩

/-- Claim C6 counterexample: with exactly one appended record, the claim
"the first appended record is always findable by `find` regardless of
`max_level`" fails — `find` on that record's own offset hits the
start-level underflow panic instead of returning its data. -/
theorem claim_c6_counterexample :
    (SkipList.build 3 [(5, "x", fun _ => false)]).find 5 = Except.error () := rfl

/-- Claim C6 as amended: the first record appended into an empty list is
assigned exactly the top level `max_level - 1` (so it carries `max_level`
forward slots), and it is findable by `find` — returning its data at some
level `L ≤ max_level - 1` — provided at least one further record has been
appended (with strictly increasing offsets); with exactly one record,
`find` panics (see the counterexample). -/
theorem claim_c6_first_record (level : Nat) (a : App) (rest : List App) (hl : 1 ≤ level) :
    levels (SkipList.build level (a :: rest)).nodes 0 = level ∧
    (getNode (SkipList.build level (a :: rest)).nodes 0).offset = a.1 ∧
    (getNode (SkipList.build level (a :: rest)).nodes 0).data = a.2.1 ∧
    (((a :: rest).map (fun x => x.1)).Pairwise (· < ·) → rest ≠ [] →
      ∃ L, L ≤ level - 1 ∧
        (SkipList.build level (a :: rest)).find a.1 = Except.ok (some (a.2.1, L))) := by
  have hb : SkipList.build level (a :: rest) =
      foldAppend ((SkipList.init level).append a.1 a.2.1 a.2.2) rest := rfl
  have h00 : (SkipList.init level).nodes.length = 0 := rfl
  have h01 : 0 < ((SkipList.init level).append a.1 a.2.1 a.2.2).nodes.length := by
    rw [append_nodes_len, h00]
    omega
  have hpres := foldAppend_preserve rest ((SkipList.init level).append a.1 a.2.1 a.2.2) 0 h01
  have hnew := append_new_fields (SkipList.init level) a.1 a.2.1 a.2.2
  rw [h00] at hnew
  have hlev0 : appendLevel (SkipList.init level) a.2.2 = level := by
    show 1 + (level - 1) = level
    omega
  have hlevels : levels (SkipList.build level (a :: rest)).nodes 0 = level := by
    rw [hb, hpres.2.2, hnew.2.2.2, hlev0]
  have hoffset : (getNode (SkipList.build level (a :: rest)).nodes 0).offset = a.1 := by
    rw [hb, hpres.1, hnew.2.1]
  have hdata : (getNode (SkipList.build level (a :: rest)).nodes 0).data = a.2.1 := by
    rw [hb, hpres.2.1, hnew.1]
  refine ⟨hlevels, hoffset, hdata, ?_⟩
  intro hmono hne
  have hw := WF_build level hl (a :: rest)
  have hs := sorted_build level (a :: rest) hmono
  have h2 : 2 ≤ (SkipList.build level (a :: rest)).nodes.length := by
    rw [build_nodes_len, List.length_cons]
    have := List.length_pos.mpr hne
    omega
  obtain ⟨L, hL, hfind⟩ := find_first _ hw hs h2
  rw [build_max] at hL
  refine ⟨L, hL, ?_⟩
  rw [← hoffset, ← hdata]
  exact hfind

theorem claim_c6_witness :
    1 ≤ 2 ∧
    ∃ L, L ≤ 1 ∧
      (SkipList.build 2 [(0, "a", fun _ => false), (1, "b", fun _ => false)]).find 0 =
        Except.ok (some ("a", L)) :=
  ⟨by decide,
    (claim_c6_first_record 2 (0, "a", fun _ => false) [(1, "b", fun _ => false)]
      (by decide)).2.2.2 (by decide) (List.cons_ne_nil _ _)⟩

/-- Claim C7: for records after the first, the chosen level equals the
number of consecutive "continue" coin flips before the first "stop" flip,
capped at `max_level - 1` (so it always lies in `[0, max_level - 1]`);
when the first `max_level - 1` flips all say "continue", the cap itself
is returned. -/
theorem claim_c7_get_level (maxIdx : Nat) (flips : Nat → Bool) :
    get_level maxIdx flips ≤ maxIdx ∧
    (∀ k, (∀ j, j < k → flips j = true) → flips k = false →
      get_level maxIdx flips = min k maxIdx) ∧
    ((∀ j, j < maxIdx → flips j = true) → get_level maxIdx flips = maxIdx) := by
  refine ⟨get_level_le maxIdx flips, ?_, ?_⟩
  · intro k hrun hstop
    unfold get_level
    have h := get_level_go_first_false flips maxIdx 0 k
      (fun j _ h2 => hrun j (by omega)) (by rw [Nat.zero_add]; exact hstop)
    rw [h]
    omega
  · intro hall
    unfold get_level
    have h := get_level_go_all_true flips maxIdx 0 (fun j _ h2 => hall j (by omega))
    rw [h]
    omega

theorem claim_c7_witness : get_level 5 (fun j => decide (j < 2)) = 2 := by
  have h := (claim_c7_get_level 5 (fun j => decide (j < 2))).2.1 2
    (fun j hj => by simpa using hj) (by decide)
  exact h.trans (by decide)

/-- Claim C8: `find` never mutates the skip list and is repeatable: any
number of `find` calls run through the operation interpreter leaves the
state exactly as it was and returns the same result every time.  (In the
source `find` takes `&self` and performs only shared `borrow()`s, which
is why its embedding is a pure function.) -/
theorem claim_c8_find_pure (sl : SkipList) (o : Nat) :
    ∀ k, runOps sl (List.replicate k (SLOp.lookup o)) = (sl, List.replicate k (sl.find o))
  | 0 => rfl
  | k + 1 => by
    rw [List.replicate_succ]
    show ((runOps sl (List.replicate k (SLOp.lookup o))).1,
      sl.find o :: (runOps sl (List.replicate k (SLOp.lookup o))).2) = _
    rw [claim_c8_find_pure sl o k, List.replicate_succ]

/-- Claim C9 (soundness of `find` with no ordering precondition): for any
`max_level ≥ 1` and any sequence of appends — monotone or not — if `find`
returns `Some((d, L))` then some `append` call supplied exactly the
queried offset with data `d`; `find` never fabricates a match. -/
theorem claim_c9_find_sound (level : Nat) (apps : List App) (t : Nat) (d : String) (L : Nat)
    (hl : 1 ≤ level)
    (h : (SkipList.build level apps).find t = Except.ok (some (d, L))) :
    ∃ a ∈ apps, a.1 = t ∧ a.2.1 = d := by
  have hw := WF_build level hl apps
  obtain ⟨k, hk, ho, hd⟩ := find_ok_some _ hw t d L h
  rcases foldAppend_nodes_from apps (SkipList.init level) k
      (by rw [← build_eq_foldAppend]; exact hk) with ⟨hk0, _, _⟩ | ⟨a, ha, hao, had⟩
  · exact absurd hk0 (Nat.not_lt_zero k)
  · rw [← build_eq_foldAppend] at hao had
    exact ⟨a, ha, hao.symm.trans ho, had.symm.trans hd⟩

theorem claim_c9_witness :
    1 ≤ 2 ∧
    ∃ a ∈ ([(0, "a", fun _ => false), (1, "b", fun _ => false)] : List App),
      a.1 = 1 ∧ a.2.1 = "b" :=
  ⟨by decide,
    claim_c9_find_sound 2 [(0, "a", fun _ => false), (1, "b", fun _ => false)] 1 "b" 0
      (by decide) rfl⟩

/-- Claim C10: after any sequence of appends (`max_level ≥ 1`), whenever
`tails[j]` holds a record `k`, that record is in the arena, participates
in level `j`, its level-`j` forward slot is empty (the per-level tail
never has a successor at its level), and it is the most recently appended
record participating in level `j` (arena index = append order). -/
theorem claim_c10_tail_invariant (level : Nat) (apps : List App) (hl : 1 ≤ level) :
    ∀ j k, (SkipList.build level apps).tails.getD j none = some k →
      k < (SkipList.build level apps).nodes.length ∧
      j < levels (SkipList.build level apps).nodes k ∧
      slot (SkipList.build level apps).nodes k j = none ∧
      ∀ k2, k2 < (SkipList.build level apps).nodes.length →
        j < levels (SkipList.build level apps).nodes k2 → k2 ≤ k :=
  fun j k hts => (WF_build level hl apps).tail_some j k hts

theorem claim_c10_witness :
    1 ≤ 2 ∧ slot (SkipList.build 2 [(0, "a", fun _ => false)]).nodes 0 1 = none :=
  ⟨by decide,
    (claim_c10_tail_invariant 2 [(0, "a", fun _ => false)] (by decide) 1 0 rfl).2.2.1⟩

end SkipVerify
